import Mathlib

/-!
Verification development for the Abnormal_Vault repository.

Part 1 embeds the two presentation-layer components found in the sources
(`SearchFilter.tsx` and `StorageStats.tsx`).  Part 2 models the
content-addressable deduplicating storage engine described by the design
document; that engine's code is not among the sources, so its definitions
are modelled from the specification text and marked as such.
-/

/-! ### SearchFilter component (src/frontend/src/components/SearchFilter.tsx) -/

/-- The `FilterValues` state of the `SearchFilter` component: six string
fields, all initialised to the empty string. -/
structure FilterValues where
  search : String
  fileType : String
  sizeMin : String
  sizeMax : String
  uploadedFrom : String
  uploadedTo : String
deriving DecidableEq

/-- The six entries of a `FilterValues` record in the order
`Object.entries` enumerates them (declaration order of the literal). -/
def filterEntries (fv : FilterValues) : List (String × String) :=
  [("search", fv.search), ("fileType", fv.fileType), ("sizeMin", fv.sizeMin),
   ("sizeMax", fv.sizeMax), ("uploadedFrom", fv.uploadedFrom), ("uploadedTo", fv.uploadedTo)]

/-- The `applyFilters` handler: folds over the entries and keeps a key/value pair only
when the value is truthy (for strings: non-empty), mirroring the
`Object.entries(...).reduce` in the source.  The produced record is
represented as an association list in insertion order. -/
def applyFilters (fv : FilterValues) : List (String × String) :=
  (filterEntries fv).foldl (fun acc kv => if kv.2 != "" then acc ++ [kv] else acc) []

/-- The `clearFilters` handler: resets every field to the empty string and emits the
empty record to `onFilterChange`, whatever the previous state was.  The
result is the new component state paired with the emitted record. -/
def clearFilters (_fv : FilterValues) : FilterValues × List (String × String) :=
  (⟨"", "", "", "", "", ""⟩, [])

/-! ### StorageStats component (src/frontend/src/components/StorageStats.tsx) -/

/-- The `StorageStatistics` interface consumed by the `StorageStats`
component: six numeric statistics plus the `last_updated` timestamp
string, exactly as declared in the source. -/
structure StorageStatistics where
  total_files : Int
  unique_files : Int
  duplicate_files : Int
  total_size : Int
  actual_size : Int
  storage_saved : Int
  last_updated : String
deriving DecidableEq

/-- The `sizes` array of `formatBytes`. -/
def sizesArr : List String := ["Bytes", "KB", "MB", "GB", "TB"]

/-- The value of `(num/den).toFixed(2)` as an integer number of hundredths, under exact
rational arithmetic with round-half-up (the idealisation of the
floating-point computation in the source). -/
def roundHalfUp2 (num den : Nat) : Nat := (num * 200 + den) / (2 * den)

/-- Rendering of a number of hundredths `n` the way
`parseFloat(x.toFixed(2))` followed by string concatenation renders
`n / 100`: trailing zeros of the fractional part are dropped, and the
decimal point disappears when the fraction is zero. -/
def decimal2 (n : Nat) : String :=
  let ip := n / 100
  let fr := n % 100
  if fr = 0 then Nat.repr ip
  else if fr % 10 = 0 then Nat.repr ip ++ "." ++ Nat.repr (fr / 10)
  else if fr < 10 then Nat.repr ip ++ ".0" ++ Nat.repr fr
  else Nat.repr ip ++ "." ++ Nat.repr fr

/-- The `formatBytes` helper from `StorageStats.tsx`.  `Math.floor(Math.log bytes /
Math.log 1024)` is embedded as `Nat.log 1024 bytes` (the exact value of
the floored base-1024 logarithm for positive input), and the
`toFixed(2)`/`parseFloat` rendering as `decimal2 ∘ roundHalfUp2`. -/
def formatBytes (bytes : Nat) : String :=
  if bytes = 0 then "0 Bytes"
  else
    let i := Nat.log 1024 bytes
    decimal2 (roundHalfUp2 bytes (1024 ^ i)) ++ " " ++ sizesArr.getD i ""

/-! ### Helper lemmas for the component proofs -/

lemma foldl_keep_append (p : String × String → Bool) :
    ∀ (l : List (String × String)) (acc : List (String × String)),
      l.foldl (fun a kv => if p kv then a ++ [kv] else a) acc = acc ++ l.filter p
  | [], acc => by simp
  | kv :: rest, acc => by
    by_cases h : p kv
    · rw [List.foldl_cons, if_pos h, List.filter_cons_of_pos h,
        foldl_keep_append p rest (acc ++ [kv])]
      simp
    · rw [List.foldl_cons, if_neg h, List.filter_cons_of_neg (by simp [h]),
        foldl_keep_append p rest acc]

lemma applyFilters_eq_filter (fv : FilterValues) :
    applyFilters fv = (filterEntries fv).filter (fun kv => kv.2 != "") := by
  unfold applyFilters
  rw [foldl_keep_append]
  simp

lemma repr_length_lt_ten {n : Nat} (h : n < 10) : (Nat.repr n).length = 1 := by
  interval_cases n <;> rfl

lemma repr_length_lt_hundred {n : Nat} (h₁ : 10 ≤ n) (h₂ : n < 100) :
    (Nat.repr n).length = 2 := by
  interval_cases n <;> rfl

/-- Shape lemma: `decimal2` always renders an integer part followed by a decimal tail of
at most three characters (a dot plus at most two digits). -/
lemma decimal2_shape (n : Nat) :
    ∃ ip ds, decimal2 n = Nat.repr ip ++ ds ∧ ds.length ≤ 3 := by
  unfold decimal2
  by_cases h0 : n % 100 = 0
  · exact ⟨n / 100, "", by simp [h0]⟩
  · by_cases h10 : n % 100 % 10 = 0
    · refine ⟨n / 100, "." ++ Nat.repr (n % 100 / 10),
        by simp [h0, h10, String.append_assoc], ?_⟩
      have hlt : n % 100 / 10 < 10 := by omega
      have hdot : (".").length = 1 := rfl
      simp [String.length_append, repr_length_lt_ten hlt, hdot]
    · by_cases hsm : n % 100 < 10
      · refine ⟨n / 100, ".0" ++ Nat.repr (n % 100),
          by simp [h0, h10, hsm, String.append_assoc], ?_⟩
        have hdot : (".0").length = 2 := rfl
        simp [String.length_append, repr_length_lt_ten hsm, hdot]
      · refine ⟨n / 100, "." ++ Nat.repr (n % 100),
          by simp [h0, h10, hsm, String.append_assoc], ?_⟩
        have hlt : n % 100 < 100 := Nat.mod_lt _ (by omega)
        have hdot : (".").length = 1 := rfl
        simp [String.length_append, repr_length_lt_hundred (by omega) hlt, hdot]

/-! ### Claim theorems for the presentation layer -/

/-- C1.  The record `applyFilters` passes to `onFilterChange` contains a
key/value pair exactly when that pair is one of the six current filter
fields and its value is a non-empty string; empty fields are omitted and
non-empty ones are passed through unchanged. -/
theorem applyFilters_exactly_nonempty (fv : FilterValues) (k v : String) :
    (k, v) ∈ applyFilters fv ↔ ((k, v) ∈ filterEntries fv ∧ v ≠ "") := by
  rw [applyFilters_eq_filter, List.mem_filter]
  simp

/-- C10.  `clearFilters` resets every one of the six filter fields to the
empty string and emits the empty record, regardless of the prior state;
in particular the emitted record agrees with what `applyFilters` would
produce from the cleared state. -/
theorem clearFilters_resets (fv : FilterValues) :
    (clearFilters fv).1.search = "" ∧ (clearFilters fv).1.fileType = "" ∧
    (clearFilters fv).1.sizeMin = "" ∧ (clearFilters fv).1.sizeMax = "" ∧
    (clearFilters fv).1.uploadedFrom = "" ∧ (clearFilters fv).1.uploadedTo = "" ∧
    (clearFilters fv).2 = [] ∧
    (clearFilters fv).2 = applyFilters (clearFilters fv).1 := by
  refine ⟨rfl, rfl, rfl, rfl, rfl, rfl, rfl, ?_⟩
  rw [applyFilters_eq_filter]
  rfl

/-- Two statistics snapshots that agree on the six statistics fields but
differ in `last_updated`. -/
def statSampleA : StorageStatistics := ⟨1, 1, 0, 5, 5, 0, "2024-01-01T00:00:00Z"⟩

/-- Same six statistics fields as `statSampleA`, different timestamp. -/
def statSampleB : StorageStatistics := ⟨1, 1, 0, 5, 5, 0, "2024-01-02T00:00:00Z"⟩

/-- C2 counterexample.  The snapshot type consumed by the presentation
layer is not made of exactly the six statistics fields: two distinct
snapshots agree on all six of them (they differ in the seventh field,
`last_updated`), so the six fields do not determine the object. -/
theorem storageStatistics_not_six_fields :
    statSampleA.total_files = statSampleB.total_files ∧
    statSampleA.unique_files = statSampleB.unique_files ∧
    statSampleA.duplicate_files = statSampleB.duplicate_files ∧
    statSampleA.total_size = statSampleB.total_size ∧
    statSampleA.actual_size = statSampleB.actual_size ∧
    statSampleA.storage_saved = statSampleB.storage_saved ∧
    statSampleA ≠ statSampleB := by
  refine ⟨rfl, rfl, rfl, rfl, rfl, rfl, ?_⟩
  decide

/-- C2 (amended).  The statistics snapshot consumed by the presentation
layer is a single object made of exactly seven fields: the six statistics
fields of the data model plus the `last_updated` timestamp string — the
projection onto those seven components is a bijection. -/
theorem storageStatistics_seven_fields :
    Function.Bijective (fun s : StorageStatistics =>
      (s.total_files, s.unique_files, s.duplicate_files,
       s.total_size, s.actual_size, s.storage_saved, s.last_updated)) := by
  constructor
  · intro a b h
    cases a; cases b
    simpa using h
  · intro t
    exact ⟨⟨t.1, t.2.1, t.2.2.1, t.2.2.2.1, t.2.2.2.2.1, t.2.2.2.2.2.1, t.2.2.2.2.2.2⟩, rfl⟩

/-- C9.  `formatBytes` maps `0` to `"0 Bytes"`; for positive byte counts
below `1024^5` it renders `bytes / 1024 ^ (Nat.log 1024 bytes)` — the
count divided by 1024 raised to the floored base-1024 logarithm — rounded
to hundredths, with at most two decimal places (decimal tail of at most
three characters including the dot), suffixed with the unit selected by
that exponent from `["Bytes", "KB", "MB", "GB", "TB"]`, whose index stays
in bounds. -/
theorem formatBytes_spec (b : Nat) (hb : 0 < b) (hlt : b < 1024 ^ 5) :
    formatBytes 0 = "0 Bytes" ∧
    Nat.log 1024 b < sizesArr.length ∧
    formatBytes b =
      decimal2 (roundHalfUp2 b (1024 ^ Nat.log 1024 b)) ++ " " ++
        sizesArr.getD (Nat.log 1024 b) "" ∧
    ∃ ip ds, decimal2 (roundHalfUp2 b (1024 ^ Nat.log 1024 b)) = Nat.repr ip ++ ds ∧
      ds.length ≤ 3 := by
  refine ⟨rfl, ?_, ?_, decimal2_shape _⟩
  · have : Nat.log 1024 b < 5 := Nat.log_lt_of_lt_pow (by omega) hlt
    simpa [sizesArr]
  · have hne : ¬ b = 0 := by omega
    simp [formatBytes, hne]

/-- Witness for C9 at `b = 1536`: `0 < 1536`, `1536 < 1024 ^ 5`, and the
rendered value is `"1.5 KB"`. -/
theorem formatBytes_spec_witness :
    0 < 1536 ∧ 1536 < 1024 ^ 5 ∧
    (formatBytes 0 = "0 Bytes" ∧
     Nat.log 1024 1536 < sizesArr.length ∧
     formatBytes 1536 =
       decimal2 (roundHalfUp2 1536 (1024 ^ Nat.log 1024 1536)) ++ " " ++
         sizesArr.getD (Nat.log 1024 1536) "" ∧
     ∃ ip ds, decimal2 (roundHalfUp2 1536 (1024 ^ Nat.log 1024 1536)) = Nat.repr ip ++ ds ∧
       ds.length ≤ 3) :=
  ⟨by decide, by norm_num, formatBytes_spec 1536 (by decide) (by norm_num)⟩

/-! ### Storage engine model

The deduplicating storage engine itself is not among the repository's
source files (only its frontend consumers and its test Makefile are), so
the definitions below are modelled from the specification: the Content
Hasher (§4.1), the reference-counted Blob Store (§4.2), the File Index
(§4.3), the Statistics Aggregator (§4.4) and the Reclaimer (§4.5).
Per §5 every mutation of a single fingerprint's blob happens inside a
per-fingerprint critical section, so a concurrent execution is modelled
as an arbitrary interleaving (serialisation) of the atomic operations. -/

/-- File content, abstracted to a string of bytes. -/
abbrev Content := String

/-- Modelled from the spec: a Fingerprint is a deterministic
content-derived identity with negligible collision probability (§3);
it is modelled as the content itself, the standard collision-free
idealisation of a cryptographic hash. -/
abbrev Fingerprint := String

/-- Modelled from the spec: the Content Hasher (§4.1) — deterministic,
collision-resistant; equal content gives equal fingerprint. -/
def contentHash (c : Content) : Fingerprint := c

/-- Modelled from the spec: a Blob (§3) — physical record keyed by
fingerprint, carrying its byte size and reference count. -/
structure Blob where
  size : Nat
  refCount : Nat
deriving DecidableEq

/-- Modelled from the spec: a FileEntry (§3) — logical record with an
identity, a nominal size and a non-owning fingerprint reference.
(Display name and owner are irrelevant to every claim and omitted.) -/
structure FileEntry where
  id : Nat
  nominalSize : Nat
  fingerprint : Fingerprint
deriving DecidableEq

/-- Modelled from the spec: the error taxonomy of §7 restricted to the
physical-storage errors that can abort an upload. -/
inductive StorageErr
  | ioFailure
  | capacityExceeded
deriving DecidableEq

/-- Modelled from the spec: the combined state of the engine — the Blob
Store (association list keyed by fingerprint), the File Index, the next
fresh file id, the staging area of in-flight physical writes, and a log
recording one entry per committed physical write. -/
structure EngineState where
  blobs : List (Fingerprint × Blob)
  files : List FileEntry
  nextId : Nat
  staging : List (Fingerprint × Nat)
  writeLog : List Fingerprint
deriving DecidableEq

/-- The initial state: no blobs, no files, nothing staged, no writes. -/
def emptyState : EngineState := ⟨[], [], 0, [], []⟩

/-- Lookup in a blob association list. -/
def findB (l : List (Fingerprint × Blob)) (fp : Fingerprint) : Option Blob :=
  (l.find? (fun p => p.1 == fp)).map (fun p => p.2)

/-- Blob Store lookup of the physical record for a fingerprint. -/
def findBlob (s : EngineState) (fp : Fingerprint) : Option Blob :=
  findB s.blobs fp

/-- The reference count the Blob Store holds for a fingerprint
(`0` when the blob is physically absent). -/
def rcOf (s : EngineState) (fp : Fingerprint) : Nat :=
  (findBlob s fp).elim 0 Blob.refCount

/-- Whether a blob for the fingerprint is physically present. -/
def hasBlob (s : EngineState) (fp : Fingerprint) : Bool :=
  (findBlob s fp).isSome

/-- Rewrite the blob stored under `fp` with `g`, leaving all other
entries (and all keys) unchanged. -/
def adjustB (l : List (Fingerprint × Blob)) (fp : Fingerprint) (g : Blob → Blob) :
    List (Fingerprint × Blob) :=
  l.map (fun p => if p.1 == fp then (p.1, g p.2) else p)

/-- Remove the blob stored under `fp`. -/
def removeB (l : List (Fingerprint × Blob)) (fp : Fingerprint) :
    List (Fingerprint × Blob) :=
  l.filter (fun p => p.1 != fp)

/-- Modelled from the spec: File Index `create` (§4.3) — inserts a
FileEntry with a fresh id and returns the id. -/
def indexCreate (s : EngineState) (fp : Fingerprint) (sz : Nat) : EngineState × Nat :=
  ({ s with files := ⟨s.nextId, sz, fp⟩ :: s.files, nextId := s.nextId + 1 }, s.nextId)

/-- Stage the physical bytes of a new blob (the streaming write of §4.2
before its commit point). -/
def stageWrite (s : EngineState) (fp : Fingerprint) (sz : Nat) : EngineState :=
  { s with staging := (fp, sz) :: s.staging }

/-- Roll a failed staged write back (§4.2 failure semantics). -/
def discardStaged (s : EngineState) (fp : Fingerprint) : EngineState :=
  { s with staging := s.staging.filter (fun p => p.1 != fp) }

/-- Commit a staged write: the staged bytes become a blob with reference
count 1 and the physical write is logged. -/
def commitStaged (s : EngineState) (fp : Fingerprint) (sz : Nat) : EngineState :=
  { s with staging := s.staging.filter (fun p => p.1 != fp),
           blobs := (fp, ⟨sz, 1⟩) :: s.blobs,
           writeLog := fp :: s.writeLog }

/-- Outcome of an upload: the created file id, or the storage error that
aborted it. -/
inductive UploadOutcome
  | ok (fid : Nat)
  | err (e : StorageErr)
deriving DecidableEq

/-- Modelled from the spec: the upload path (§2, §4.2, §6) — Blob Store
`put_or_link` followed by File Index `create`.  `oracle` injects the
physical-storage error (stream failure or storage-full) the environment
may produce; on any error the whole operation aborts with no
partially-applied state, discarding any staged write.  If a blob for the
fingerprint already exists the incoming stream is discarded and the
reference count is atomically incremented; otherwise the staged stream
is committed as a new blob with reference count 1 (the single physical
write for this fingerprint). -/
def upload (s : EngineState) (c : Content) (oracle : Option StorageErr) :
    EngineState × UploadOutcome :=
  let fp := contentHash c
  let sz := c.length
  match findBlob s fp with
  | some _ =>
    match oracle with
    | some e => (s, .err e)
    | none =>
      let s1 := { s with blobs := adjustB s.blobs fp (fun b => ⟨b.size, b.refCount + 1⟩) }
      let cr := indexCreate s1 fp sz
      (cr.1, .ok cr.2)
  | none =>
    let s1 := stageWrite s fp sz
    match oracle with
    | some e => (discardStaged s1 fp, .err e)
    | none =>
      let s2 := commitStaged s1 fp sz
      let cr := indexCreate s2 fp sz
      (cr.1, .ok cr.2)

/-- Modelled from the spec: Blob Store `unlink` plus the Reclaimer
(§4.2, §4.5) — atomically decrement the reference count; when it reaches
0 the blob is reclaimed (physically deleted) under the same
per-fingerprint guard. -/
def unlink (s : EngineState) (fp : Fingerprint) : EngineState :=
  match findBlob s fp with
  | none => s
  | some b =>
    if b.refCount ≤ 1 then { s with blobs := removeB s.blobs fp }
    else { s with blobs := adjustB s.blobs fp (fun b' => ⟨b'.size, b'.refCount - 1⟩) }

/-- Outcome of a delete: the fingerprint of the removed entry, or
`missing` (the NotFound no-op of §7). -/
inductive DeleteOutcome
  | ok (fp : Fingerprint)
  | missing
deriving DecidableEq

/-- Modelled from the spec: the delete path (§2, §4.3, §6) — File Index
`delete` (index removal happens-before the unlink), then Blob Store
`unlink`, forwarding the reclaim decision to the Reclaimer. -/
def fileDelete (s : EngineState) (fid : Nat) : EngineState × DeleteOutcome :=
  match s.files.find? (fun f => f.id == fid) with
  | none => (s, .missing)
  | some f =>
    let s1 := { s with files := s.files.filter (fun g => g.id != fid) }
    (unlink s1 f.fingerprint, .ok f.fingerprint)

/-- Modelled from the spec: `BlobMeta`, the payload of a Blob Store
lookup (§4.2): size and reference count. -/
structure BlobMeta where
  size : Nat
  refCount : Nat
deriving DecidableEq

/-- Modelled from the spec: Blob Store `lookup` (§4.2) — read-only,
returns size and reference count if a blob is present with positive
reference count, and nothing otherwise. -/
def blobLookup (s : EngineState) (fp : Fingerprint) : Option BlobMeta :=
  match findBlob s fp with
  | some b => if 0 < b.refCount then some ⟨b.size, b.refCount⟩ else none
  | none => none

/-- Modelled from the spec: the StorageStatistics counters of §3 as the
Statistics Aggregator (§4.4) derives them.  The two subtraction-defined
counters are integers so that their sign is observable. -/
structure EngineStats where
  total_files : Nat
  unique_files : Nat
  duplicate_files : Int
  total_size : Nat
  actual_size : Nat
  storage_saved : Int
deriving DecidableEq

/-- The blobs with positive reference count (the ones that occupy
physical storage and count for statistics). -/
def liveBlobs (s : EngineState) : List (Fingerprint × Blob) :=
  s.blobs.filter (fun p => p.2.refCount != 0)

/-- Modelled from the spec: full recomputation of the published
statistics snapshot from Blob Store and File Index state (§3, §4.4). -/
def computeStats (s : EngineState) : EngineStats :=
  let tf := s.files.length
  let uf := (liveBlobs s).length
  let ts := (s.files.map (fun f => f.nominalSize)).sum
  let act := ((liveBlobs s).map (fun p => p.2.size)).sum
  { total_files := tf
    unique_files := uf
    duplicate_files := (tf : Int) - (uf : Int)
    total_size := ts
    actual_size := act
    storage_saved := (ts : Int) - (act : Int) }

/-- Number of FileEntry records referencing a given fingerprint. -/
def countFp (files : List FileEntry) (fp : Fingerprint) : Nat :=
  (files.filter (fun f => f.fingerprint == fp)).length

/-- Number of physical writes ever performed for a fingerprint. -/
def writeCount (s : EngineState) (fp : Fingerprint) : Nat :=
  s.writeLog.count fp

/-- The states reachable from the initial state by uploads (with any
error injection) and deletes — every interleaving of the atomic
per-fingerprint operations of §5. -/
inductive Reachable : EngineState → Prop
  | init : Reachable emptyState
  | up (s : EngineState) (c : Content) (oracle : Option StorageErr) :
      Reachable s → Reachable (upload s c oracle).1
  | del (s : EngineState) (fid : Nat) :
      Reachable s → Reachable (fileDelete s fid).1

/-- The internal consistency invariant of the engine (§3 invariants plus
bookkeeping): the staging area is empty between operations, blob keys
and file ids are unique, ids are below the fresh-id counter, every
reference count equals the number of FileEntry records for that
fingerprint and is positive, blob and file sizes agree with the content
length their fingerprint determines, and every file points at an
existing blob. -/
structure EngineInv (s : EngineState) : Prop where
  stagingEmpty : s.staging = []
  keysNodup : (s.blobs.map (fun p => p.1)).Nodup
  idsNodup : (s.files.map (fun f => f.id)).Nodup
  idsLt : ∀ f ∈ s.files, f.id < s.nextId
  rcCount : ∀ p ∈ s.blobs, p.2.refCount = countFp s.files p.1
  rcPos : ∀ p ∈ s.blobs, 0 < p.2.refCount
  blobSize : ∀ p ∈ s.blobs, p.2.size = p.1.length
  fileSize : ∀ f ∈ s.files, f.nominalSize = f.fingerprint.length
  fileBlob : ∀ f ∈ s.files, ∃ b, (f.fingerprint, b) ∈ s.blobs

/-! ### Association-list lemmas for the Blob Store -/

lemma findB_nil (fp : Fingerprint) : findB [] fp = none := rfl

lemma findB_cons_self (l : List (Fingerprint × Blob)) (fp : Fingerprint) (b : Blob) :
    findB ((fp, b) :: l) fp = some b := by
  simp [findB, List.find?_cons]

lemma findB_cons_ne (l : List (Fingerprint × Blob)) {fp₀ fp : Fingerprint} (b : Blob)
    (h : fp₀ ≠ fp) : findB ((fp₀, b) :: l) fp = findB l fp := by
  simp [findB, List.find?_cons, h]

lemma mem_of_findB {l : List (Fingerprint × Blob)} {fp : Fingerprint} {b : Blob}
    (h : findB l fp = some b) : (fp, b) ∈ l := by
  unfold findB at h
  obtain ⟨p, hp, rfl⟩ : ∃ p, l.find? (fun p => p.1 == fp) = some p ∧ p.2 = b := by
    cases hfind : l.find? (fun p => p.1 == fp) with
    | none => simp [hfind] at h
    | some p => exact ⟨p, rfl, by simpa [hfind] using h⟩
  have hkey : p.1 = fp := by simpa using List.find?_some hp
  have hmem := List.mem_of_find?_eq_some hp
  rw [← hkey]
  exact hmem

lemma findB_eq_none_iff {l : List (Fingerprint × Blob)} {fp : Fingerprint} :
    findB l fp = none ↔ ∀ b, (fp, b) ∉ l := by
  unfold findB
  rw [Option.map_eq_none', List.find?_eq_none]
  constructor
  · intro h b hb
    exact absurd (by simp : ((fp, b).1 == fp) = true) (h _ hb)
  · intro h p hp
    simp only [beq_iff_eq]
    intro hkey
    exact h p.2 (by rw [← hkey]; exact hp)

lemma findB_of_mem {l : List (Fingerprint × Blob)} {fp : Fingerprint} {b : Blob}
    (hnd : (l.map (fun p => p.1)).Nodup) (h : (fp, b) ∈ l) : findB l fp = some b := by
  induction l with
  | nil => simp at h
  | cons p rest ih =>
    rcases List.mem_cons.mp h with heq | hmem
    · rw [← heq]
      exact findB_cons_self rest fp b
    · have hkeys : p.1 ∉ rest.map (fun q => q.1) := (List.nodup_cons.mp hnd).1
      have hne : p.1 ≠ fp := by
        intro hk
        exact hkeys (hk ▸ List.mem_map_of_mem (fun q => q.1) hmem)
      obtain ⟨k, b'⟩ := p
      rw [findB_cons_ne rest b' hne]
      exact ih (List.nodup_cons.mp hnd).2 hmem

lemma adjustB_cons (p : Fingerprint × Blob) (l : List (Fingerprint × Blob))
    (fp : Fingerprint) (g : Blob → Blob) :
    adjustB (p :: l) fp g =
      (if p.1 == fp then (p.1, g p.2) else p) :: adjustB l fp g := rfl

lemma keys_adjustB (l : List (Fingerprint × Blob)) (fp : Fingerprint) (g : Blob → Blob) :
    (adjustB l fp g).map (fun p => p.1) = l.map (fun p => p.1) := by
  unfold adjustB
  rw [List.map_map]
  refine List.map_congr_left ?_
  intro p _
  by_cases h : p.1 = fp <;> simp [h]

lemma findB_adjustB_self (l : List (Fingerprint × Blob)) (fp : Fingerprint) (g : Blob → Blob) :
    findB (adjustB l fp g) fp = (findB l fp).map g := by
  induction l with
  | nil => rfl
  | cons p rest ih =>
    obtain ⟨k, b⟩ := p
    rw [adjustB_cons]
    by_cases h : k = fp
    · subst h
      rw [if_pos (by simp)]
      rw [findB_cons_self, findB_cons_self]
      rfl
    · rw [if_neg (by simpa using h)]
      rw [findB_cons_ne _ _ h, findB_cons_ne _ _ h]
      exact ih

lemma findB_adjustB_ne (l : List (Fingerprint × Blob)) {fp fp' : Fingerprint}
    (g : Blob → Blob) (h : fp' ≠ fp) :
    findB (adjustB l fp g) fp' = findB l fp' := by
  induction l with
  | nil => rfl
  | cons p rest ih =>
    obtain ⟨k, b⟩ := p
    rw [adjustB_cons]
    by_cases hk : k = fp
    · subst hk
      rw [if_pos (by simp)]
      rw [findB_cons_ne _ _ (Ne.symm h), findB_cons_ne _ _ (Ne.symm h)]
      exact ih
    · rw [if_neg (by simpa using hk)]
      by_cases hk' : k = fp'
      · subst hk'
        rw [findB_cons_self, findB_cons_self]
      · rw [findB_cons_ne _ _ hk', findB_cons_ne _ _ hk']
        exact ih

lemma findB_removeB_self (l : List (Fingerprint × Blob)) (fp : Fingerprint) :
    findB (removeB l fp) fp = none := by
  rw [findB_eq_none_iff]
  intro b hb
  have := List.of_mem_filter hb
  simp at this

lemma findB_removeB_ne (l : List (Fingerprint × Blob)) {fp fp' : Fingerprint}
    (h : fp' ≠ fp) : findB (removeB l fp) fp' = findB l fp' := by
  induction l with
  | nil => rfl
  | cons p rest ih =>
    obtain ⟨k, b⟩ := p
    by_cases hk : k = fp
    · subst hk
      have : removeB ((k, b) :: rest) k = removeB rest k := by
        simp [removeB, List.filter_cons]
      rw [this, findB_cons_ne _ _ (Ne.symm h)]
      exact ih
    · have : removeB ((k, b) :: rest) fp = (k, b) :: removeB rest fp := by
        simp [removeB, List.filter_cons, hk]
      rw [this]
      by_cases hk' : k = fp'
      · subst hk'
        rw [findB_cons_self, findB_cons_self]
      · rw [findB_cons_ne _ _ hk', findB_cons_ne _ _ hk']
        exact ih

lemma keys_removeB_nodup {l : List (Fingerprint × Blob)} (fp : Fingerprint)
    (hnd : (l.map (fun p => p.1)).Nodup) :
    ((removeB l fp).map (fun p => p.1)).Nodup :=
  hnd.sublist (List.Sublist.map _ (List.filter_sublist l))

/-! ### Counting lemmas for the File Index -/

lemma countFp_nil (fp : Fingerprint) : countFp [] fp = 0 := rfl

lemma countFp_cons (e : FileEntry) (files : List FileEntry) (fp : Fingerprint) :
    countFp (e :: files) fp = countFp files fp + (if e.fingerprint = fp then 1 else 0) := by
  by_cases h : e.fingerprint = fp <;> simp [countFp, List.filter_cons, h]

lemma countFp_pos_exists {files : List FileEntry} {fp : Fingerprint}
    (h : 0 < countFp files fp) : ∃ f ∈ files, f.fingerprint = fp := by
  unfold countFp at h
  rw [List.length_pos] at h
  obtain ⟨f, hf⟩ := List.exists_mem_of_ne_nil _ h
  exact ⟨f, List.mem_of_mem_filter hf, by simpa using List.of_mem_filter hf⟩

lemma countFp_eq_zero {files : List FileEntry} {fp : Fingerprint}
    (h : ∀ f ∈ files, f.fingerprint ≠ fp) : countFp files fp = 0 := by
  unfold countFp
  rw [List.length_eq_zero, List.filter_eq_nil_iff]
  intro f hf
  simpa using h f hf

lemma filter_id_eq_erase {files : List FileEntry} {f : FileEntry}
    (hnd : (files.map (fun g => g.id)).Nodup) (hf : f ∈ files) :
    files.filter (fun g => g.id != f.id) = files.erase f := by
  induction files with
  | nil => simp at hf
  | cons e rest ih =>
    have hnd' := List.nodup_cons.mp hnd
    by_cases he : e = f
    · subst he
      have hrest : ∀ g ∈ rest, (g.id != e.id) = true := by
        intro g hg
        have : e.id ∉ rest.map (fun g => g.id) := hnd'.1
        have hne : g.id ≠ e.id := by
          intro hgid
          exact this (hgid ▸ List.mem_map_of_mem (fun g => g.id) hg)
        simpa using hne
      rw [List.filter_cons_of_neg (by simp), List.erase_cons_head,
        List.filter_eq_self.mpr hrest]
    · have hfrest : f ∈ rest := by
        rcases List.mem_cons.mp hf with h | h
        · exact absurd h.symm he
        · exact h
      have hne : e.id ≠ f.id := by
        intro hid
        have hmem : f.id ∈ rest.map (fun g => g.id) :=
          List.mem_map_of_mem (fun g => g.id) hfrest
        exact hnd'.1 (by simpa [hid] using hmem)
      rw [List.filter_cons_of_pos (by simpa using hne),
        List.erase_cons_tail (by simpa using he), ih hnd'.2 hfrest]

lemma countFp_perm {files files' : List FileEntry} (h : files.Perm files')
    (fp : Fingerprint) : countFp files fp = countFp files' fp :=
  (h.filter _).length_eq

lemma countFp_erase {files : List FileEntry} {f : FileEntry} (hf : f ∈ files)
    (fp : Fingerprint) :
    countFp files fp = countFp (files.erase f) fp + (if f.fingerprint = fp then 1 else 0) := by
  have hperm : files.Perm (f :: files.erase f) := List.perm_cons_erase hf
  rw [countFp_perm hperm fp, countFp_cons]

lemma countFp_pos_of_mem {files : List FileEntry} {f : FileEntry} {fp : Fingerprint}
    (hf : f ∈ files) (hfp : f.fingerprint = fp) : 0 < countFp files fp := by
  unfold countFp
  rw [List.length_pos]
  intro hnil
  have : f ∈ files.filter (fun g => g.fingerprint == fp) :=
    List.mem_filter.mpr ⟨hf, by simpa using hfp⟩
  rw [hnil] at this
  simp at this

lemma adjustB_mem_key {l : List (Fingerprint × Blob)} {fp' : Fingerprint}
    (fp : Fingerprint) (g : Blob → Blob) (h : ∃ b, (fp', b) ∈ l) :
    ∃ b, (fp', b) ∈ adjustB l fp g := by
  obtain ⟨b, hb⟩ := h
  have hm := List.mem_map_of_mem (fun p => if p.1 == fp then (p.1, g p.2) else p) hb
  by_cases hk : fp' = fp
  · exact ⟨g b, by simpa [adjustB, hk] using hm⟩
  · exact ⟨b, by simpa [adjustB, hk] using hm⟩

lemma mem_key_unique {l : List (Fingerprint × Blob)} {fp : Fingerprint} {b b' : Blob}
    (hnd : (l.map (fun p => p.1)).Nodup) (h : (fp, b) ∈ l) (h' : (fp, b') ∈ l) :
    b = b' := by
  have h1 := findB_of_mem hnd h
  have h2 := findB_of_mem hnd h'
  rw [h1] at h2
  exact Option.some.inj h2

/-! ### Characterisations of the engine operations -/

lemma set_staging_eq {s : EngineState} (h : s.staging = []) :
    { s with staging := [] } = s := by
  cases s
  simp_all

lemma upload_link_err {s : EngineState} {c : Content} {b : Blob} (e : StorageErr)
    (hfb : findBlob s (contentHash c) = some b) :
    upload s c (some e) = (s, .err e) := by
  simp only [upload, hfb]

lemma upload_link_ok {s : EngineState} {c : Content} {b : Blob}
    (hfb : findBlob s (contentHash c) = some b) :
    upload s c none =
      ({ s with blobs := adjustB s.blobs (contentHash c) (fun b' => ⟨b'.size, b'.refCount + 1⟩),
                files := ⟨s.nextId, c.length, contentHash c⟩ :: s.files,
                nextId := s.nextId + 1 }, .ok s.nextId) := by
  simp only [upload, hfb, indexCreate]

lemma upload_fresh_err {s : EngineState} {c : Content} (e : StorageErr)
    (hst : s.staging = []) (hfb : findBlob s (contentHash c) = none) :
    upload s c (some e) = (s, .err e) := by
  simp only [upload, hfb, discardStaged, stageWrite]
  rw [Prod.mk.injEq]
  refine ⟨?_, rfl⟩
  rw [hst]
  have : (([(contentHash c, c.length)] : List (Fingerprint × Nat)).filter
      (fun p => p.1 != contentHash c)) = [] := by simp
  rw [this]
  exact set_staging_eq hst

lemma upload_fresh_ok {s : EngineState} {c : Content}
    (hst : s.staging = []) (hfb : findBlob s (contentHash c) = none) :
    upload s c none =
      ({ s with staging := [],
                blobs := (contentHash c, ⟨c.length, 1⟩) :: s.blobs,
                files := ⟨s.nextId, c.length, contentHash c⟩ :: s.files,
                nextId := s.nextId + 1,
                writeLog := contentHash c :: s.writeLog }, .ok s.nextId) := by
  simp only [upload, hfb, commitStaged, stageWrite, indexCreate]
  rw [Prod.mk.injEq]
  refine ⟨?_, rfl⟩
  rw [hst]
  simp

lemma unlink_absent {s : EngineState} {fp : Fingerprint}
    (h : findBlob s fp = none) : unlink s fp = s := by
  simp only [unlink, h]

lemma unlink_last {s : EngineState} {fp : Fingerprint} {b : Blob}
    (h : findBlob s fp = some b) (hrc : b.refCount ≤ 1) :
    unlink s fp = { s with blobs := removeB s.blobs fp } := by
  simp only [unlink, h, if_pos hrc]

lemma unlink_dec {s : EngineState} {fp : Fingerprint} {b : Blob}
    (h : findBlob s fp = some b) (hrc : ¬ b.refCount ≤ 1) :
    unlink s fp =
      { s with blobs := adjustB s.blobs fp (fun b' => ⟨b'.size, b'.refCount - 1⟩) } := by
  simp only [unlink, h, if_neg hrc]

lemma fileDelete_missing {s : EngineState} {fid : Nat}
    (h : s.files.find? (fun f => f.id == fid) = none) :
    fileDelete s fid = (s, .missing) := by
  simp only [fileDelete, h]

lemma fileDelete_found {s : EngineState} {fid : Nat} {f : FileEntry}
    (h : s.files.find? (fun f => f.id == fid) = some f) :
    fileDelete s fid =
      (unlink { s with files := s.files.filter (fun g => g.id != fid) } f.fingerprint,
       .ok f.fingerprint) := by
  simp only [fileDelete, h]

/-! ### Invariant preservation -/

lemma engineInv_empty : EngineInv emptyState :=
  ⟨rfl, by simp [emptyState], by simp [emptyState], by simp [emptyState],
   by simp [emptyState], by simp [emptyState], by simp [emptyState],
   by simp [emptyState], by simp [emptyState]⟩

lemma engineInv_link {s : EngineState} {c : Content} {b : Blob}
    (h : EngineInv s) (hfb : findBlob s (contentHash c) = some b) :
    EngineInv { s with
      blobs := adjustB s.blobs (contentHash c) (fun b' => ⟨b'.size, b'.refCount + 1⟩),
      files := ⟨s.nextId, c.length, contentHash c⟩ :: s.files,
      nextId := s.nextId + 1 } := by
  refine ⟨h.stagingEmpty, ?_, ?_, ?_, ?_, ?_, ?_, ?_, ?_⟩
  · rw [keys_adjustB]
    exact h.keysNodup
  · simp only [List.map_cons]
    refine List.nodup_cons.mpr ⟨?_, h.idsNodup⟩
    intro hmem
    obtain ⟨f, hf, hfid⟩ := List.mem_map.mp hmem
    exact absurd (h.idsLt f hf) (by omega)
  · intro f hf
    rcases List.mem_cons.mp hf with rfl | hf'
    · exact Nat.lt_succ_self _
    · exact Nat.lt_succ_of_lt (h.idsLt f hf')
  · intro p hp
    rcases List.mem_map.mp hp with ⟨q, hq, rfl⟩
    by_cases hk : q.1 = contentHash c
    · rw [if_pos (beq_iff_eq.mpr hk), countFp_cons,
        if_pos (show (⟨s.nextId, c.length, contentHash c⟩ : FileEntry).fingerprint = q.1 from hk.symm)]
      have hrc := h.rcCount q hq
      show q.2.refCount + 1 = countFp s.files q.1 + 1
      omega
    · rw [if_neg (by simpa using hk), countFp_cons,
        if_neg (show ¬ (⟨s.nextId, c.length, contentHash c⟩ : FileEntry).fingerprint = q.1 from
          fun he => hk he.symm)]
      exact h.rcCount q hq
  · intro p hp
    rcases List.mem_map.mp hp with ⟨q, hq, rfl⟩
    by_cases hk : q.1 = contentHash c
    · rw [if_pos (beq_iff_eq.mpr hk)]
      exact Nat.succ_pos _
    · rw [if_neg (by simpa using hk)]
      exact h.rcPos q hq
  · intro p hp
    rcases List.mem_map.mp hp with ⟨q, hq, rfl⟩
    by_cases hk : q.1 = contentHash c
    · rw [if_pos (beq_iff_eq.mpr hk)]
      exact h.blobSize q hq
    · rw [if_neg (by simpa using hk)]
      exact h.blobSize q hq
  · intro f hf
    rcases List.mem_cons.mp hf with rfl | hf'
    · rfl
    · exact h.fileSize f hf'
  · intro f hf
    rcases List.mem_cons.mp hf with rfl | hf'
    · exact adjustB_mem_key (contentHash c)
        (fun b' => ⟨b'.size, b'.refCount + 1⟩) ⟨b, mem_of_findB hfb⟩
    · exact adjustB_mem_key (contentHash c)
        (fun b' => ⟨b'.size, b'.refCount + 1⟩) (h.fileBlob f hf')

lemma engineInv_commit {s : EngineState} {c : Content}
    (h : EngineInv s) (hfb : findBlob s (contentHash c) = none) :
    EngineInv { s with
      staging := [],
      blobs := (contentHash c, ⟨c.length, 1⟩) :: s.blobs,
      files := ⟨s.nextId, c.length, contentHash c⟩ :: s.files,
      nextId := s.nextId + 1,
      writeLog := contentHash c :: s.writeLog } := by
  have hnotin : ∀ b', (contentHash c, b') ∉ s.blobs := findB_eq_none_iff.mp hfb
  have hnofile : countFp s.files (contentHash c) = 0 := by
    refine countFp_eq_zero ?_
    intro f hf hfp
    obtain ⟨b', hb'⟩ := h.fileBlob f hf
    exact hnotin b' (hfp ▸ hb')
  have hkeyne : ∀ q ∈ s.blobs, q.1 ≠ contentHash c := by
    intro q hq hk
    exact hnotin q.2 (by rw [← hk]; exact hq)
  refine ⟨rfl, ?_, ?_, ?_, ?_, ?_, ?_, ?_, ?_⟩
  · simp only [List.map_cons]
    refine List.nodup_cons.mpr ⟨?_, h.keysNodup⟩
    intro hmem
    obtain ⟨q, hq, hqk⟩ := List.mem_map.mp hmem
    exact hkeyne q hq hqk
  · simp only [List.map_cons]
    refine List.nodup_cons.mpr ⟨?_, h.idsNodup⟩
    intro hmem
    obtain ⟨f, hf, hfid⟩ := List.mem_map.mp hmem
    exact absurd (h.idsLt f hf) (by omega)
  · intro f hf
    rcases List.mem_cons.mp hf with rfl | hf'
    · exact Nat.lt_succ_self _
    · exact Nat.lt_succ_of_lt (h.idsLt f hf')
  · intro p hp
    rcases List.mem_cons.mp hp with rfl | hp'
    · rw [countFp_cons, if_pos rfl, hnofile]
    · rw [countFp_cons, if_neg (fun he => hkeyne p hp' he.symm)]
      exact h.rcCount p hp'
  · intro p hp
    rcases List.mem_cons.mp hp with rfl | hp'
    · exact Nat.one_pos
    · exact h.rcPos p hp'
  · intro p hp
    rcases List.mem_cons.mp hp with rfl | hp'
    · rfl
    · exact h.blobSize p hp'
  · intro f hf
    rcases List.mem_cons.mp hf with rfl | hf'
    · rfl
    · exact h.fileSize f hf'
  · intro f hf
    rcases List.mem_cons.mp hf with rfl | hf'
    · exact ⟨⟨c.length, 1⟩, List.mem_cons_self _ _⟩
    · obtain ⟨b', hb'⟩ := h.fileBlob f hf'
      exact ⟨b', List.mem_cons_of_mem _ hb'⟩

lemma engineInv_upload (s : EngineState) (c : Content) (oracle : Option StorageErr)
    (h : EngineInv s) : EngineInv (upload s c oracle).1 := by
  cases hfb : findBlob s (contentHash c) with
  | some b =>
    cases oracle with
    | some e =>
      rw [upload_link_err e hfb]
      exact h
    | none =>
      rw [upload_link_ok hfb]
      exact engineInv_link h hfb
  | none =>
    cases oracle with
    | some e =>
      rw [upload_fresh_err e h.stagingEmpty hfb]
      exact h
    | none =>
      rw [upload_fresh_ok h.stagingEmpty hfb]
      exact engineInv_commit h hfb

lemma engineInv_delete (s : EngineState) (fid : Nat) (h : EngineInv s) :
    EngineInv (fileDelete s fid).1 := by
  cases hfind : s.files.find? (fun f => f.id == fid) with
  | none =>
    rw [fileDelete_missing hfind]
    exact h
  | some f =>
    rw [fileDelete_found hfind]
    have hfmem : f ∈ s.files := List.mem_of_find?_eq_some hfind
    have hfid : f.id = fid := by simpa using List.find?_some hfind
    have hfilter : s.files.filter (fun g => g.id != fid) = s.files.erase f := by
      rw [← hfid]
      exact filter_id_eq_erase h.idsNodup hfmem
    obtain ⟨b0, hb0⟩ := h.fileBlob f hfmem
    have hfb1 : findBlob { s with files := s.files.filter (fun g => g.id != fid) }
        f.fingerprint = some b0 := findB_of_mem h.keysNodup hb0
    have hrc0 : b0.refCount = countFp s.files f.fingerprint :=
      h.rcCount (f.fingerprint, b0) hb0
    have hsplit : countFp s.files f.fingerprint =
        countFp (s.files.erase f) f.fingerprint + 1 := by
      rw [countFp_erase hfmem]
      simp
    have hpos : 0 < b0.refCount := h.rcPos (f.fingerprint, b0) hb0
    have hsubnodup : ((s.files.filter (fun g => g.id != fid)).map (fun g => g.id)).Nodup :=
      h.idsNodup.sublist (List.Sublist.map _ (List.filter_sublist s.files))
    by_cases hle : b0.refCount ≤ 1
    · rw [unlink_last hfb1 hle]
      have hzero : countFp (s.files.erase f) f.fingerprint = 0 := by omega
      refine ⟨h.stagingEmpty, ?_, hsubnodup, ?_, ?_, ?_, ?_, ?_, ?_⟩
      · exact keys_removeB_nodup f.fingerprint h.keysNodup
      · intro g hg
        exact h.idsLt g (List.mem_of_mem_filter hg)
      · intro p hp
        have hpmem : p ∈ s.blobs := List.mem_of_mem_filter hp
        have hpne : p.1 ≠ f.fingerprint := by simpa using List.of_mem_filter hp
        have heq := countFp_erase hfmem p.1
        rw [if_neg (fun he => hpne he.symm), Nat.add_zero] at heq
        rw [hfilter, ← heq]
        exact h.rcCount p hpmem
      · intro p hp
        exact h.rcPos p (List.mem_of_mem_filter hp)
      · intro p hp
        exact h.blobSize p (List.mem_of_mem_filter hp)
      · intro g hg
        exact h.fileSize g (List.mem_of_mem_filter hg)
      · intro g hg
        have hg2 : g ∈ s.files.erase f := by
          have hg1 : g ∈ s.files.filter (fun g => g.id != fid) := hg
          rw [hfilter] at hg1
          exact hg1
        have hgfiles : g ∈ s.files := List.mem_of_mem_erase hg2
        obtain ⟨b', hb'⟩ := h.fileBlob g hgfiles
        have hgne : g.fingerprint ≠ f.fingerprint := by
          intro he
          have hcpos : 0 < countFp (s.files.erase f) f.fingerprint :=
            countFp_pos_of_mem hg2 he
          omega
        exact ⟨b', List.mem_filter.mpr ⟨hb', by simpa using hgne⟩⟩
    · rw [unlink_dec hfb1 hle]
      refine ⟨h.stagingEmpty, ?_, hsubnodup, ?_, ?_, ?_, ?_, ?_, ?_⟩
      · rw [keys_adjustB]
        exact h.keysNodup
      · intro g hg
        exact h.idsLt g (List.mem_of_mem_filter hg)
      · intro p hp
        rcases List.mem_map.mp hp with ⟨q, hq, rfl⟩
        by_cases hk : q.1 = f.fingerprint
        · have hqb0 : q.2 = b0 := by
            refine mem_key_unique h.keysNodup ?_ hb0
            rw [← hk]
            exact hq
          rw [if_pos (beq_iff_eq.mpr hk), hfilter]
          show q.2.refCount - 1 = countFp (s.files.erase f) q.1
          rw [hk, hqb0]
          omega
        · rw [if_neg (by simpa using hk), hfilter]
          have heq := countFp_erase hfmem q.1
          rw [if_neg (fun he => hk he.symm), Nat.add_zero] at heq
          rw [← heq]
          exact h.rcCount q hq
      · intro p hp
        rcases List.mem_map.mp hp with ⟨q, hq, rfl⟩
        by_cases hk : q.1 = f.fingerprint
        · have hqb0 : q.2 = b0 := by
            refine mem_key_unique h.keysNodup ?_ hb0
            rw [← hk]
            exact hq
          rw [if_pos (beq_iff_eq.mpr hk)]
          show 0 < q.2.refCount - 1
          rw [hqb0]
          omega
        · rw [if_neg (by simpa using hk)]
          exact h.rcPos q hq
      · intro p hp
        rcases List.mem_map.mp hp with ⟨q, hq, rfl⟩
        by_cases hk : q.1 = f.fingerprint
        · rw [if_pos (beq_iff_eq.mpr hk)]
          exact h.blobSize q hq
        · rw [if_neg (by simpa using hk)]
          exact h.blobSize q hq
      · intro g hg
        exact h.fileSize g (List.mem_of_mem_filter hg)
      · intro g hg
        have hgfiles : g ∈ s.files := List.mem_of_mem_filter hg
        exact adjustB_mem_key f.fingerprint
          (fun b' => ⟨b'.size, b'.refCount - 1⟩) (h.fileBlob g hgfiles)

/-- Every reachable state satisfies the engine invariant. -/
lemma reachable_inv {s : EngineState} (h : Reachable s) : EngineInv s := by
  induction h with
  | init => exact engineInv_empty
  | up s' c oracle _ ih => exact engineInv_upload s' c oracle ih
  | del s' fid _ ih => exact engineInv_delete s' fid ih

/-! ### Summation lemmas for the statistics -/

lemma sum_filter_not_add (l : List FileEntry) (p : FileEntry → Bool) (w : FileEntry → Nat) :
    ((l.filter p).map w).sum + ((l.filter (fun a => !(p a))).map w).sum = (l.map w).sum := by
  induction l with
  | nil => rfl
  | cons e rest ih =>
    by_cases h : p e <;> simp [List.filter_cons, h] <;> omega

lemma countFp_filter_out {files : List FileEntry} {fp fp0 : Fingerprint} (h : fp ≠ fp0) :
    countFp (files.filter (fun f => !(f.fingerprint == fp0))) fp = countFp files fp := by
  induction files with
  | nil => rfl
  | cons e rest ih =>
    by_cases he : e.fingerprint = fp0
    · rw [List.filter_cons_of_neg (by simp [he]), ih, countFp_cons,
        if_neg (fun hh : e.fingerprint = fp => h (by rw [← hh]; exact he))]
      omega
    · rw [List.filter_cons_of_pos (by simpa using he), countFp_cons, countFp_cons, ih]

lemma sum_map_one {α : Type} (l : List α) : (l.map (fun _ => 1)).sum = l.length := by
  induction l with
  | nil => rfl
  | cons e rest ih =>
    simp [ih]
    omega

/-- The heart of the conservation law: under the refcount invariant, the
sum of any per-blob weight `v` over the live blobs is bounded by the sum
of a per-file weight `w`, provided `v` of a blob never exceeds `w` of any
file referencing it. -/
lemma live_sum_le (v : Blob → Nat) (w : FileEntry → Nat) :
    ∀ (blobs : List (Fingerprint × Blob)) (files : List FileEntry),
      (blobs.map (fun p => p.1)).Nodup →
      (∀ p ∈ blobs, p.2.refCount = countFp files p.1) →
      (∀ p ∈ blobs, ∀ f ∈ files, f.fingerprint = p.1 → v p.2 ≤ w f) →
      (∀ f ∈ files, ∃ b, (f.fingerprint, b) ∈ blobs) →
      ((blobs.filter (fun p => p.2.refCount != 0)).map (fun p => v p.2)).sum ≤
        (files.map w).sum
  | [], files, _, _, _, _ => Nat.zero_le _
  | (fp0, b0) :: rest, files, hnd, hrc, hvw, hfb => by
    have hnd2 : (∀ x : Blob, (fp0, x) ∉ rest) ∧ (rest.map (fun p => p.1)).Nodup := by
      simpa using hnd
    have hsplit : ((files.filter (fun f => f.fingerprint == fp0)).map w).sum +
        ((files.filter (fun f => !(f.fingerprint == fp0))).map w).sum =
        (files.map w).sum :=
      sum_filter_not_add files (fun f => f.fingerprint == fp0) w
    have hrcb : b0.refCount = countFp files fp0 :=
      hrc (fp0, b0) (List.mem_cons_self _ _)
    have hrest : ((rest.filter (fun p => p.2.refCount != 0)).map (fun p => v p.2)).sum ≤
        ((files.filter (fun f => !(f.fingerprint == fp0))).map w).sum := by
      refine live_sum_le v w rest (files.filter (fun f => !(f.fingerprint == fp0)))
        hnd2.2 ?_ ?_ ?_
      · intro p hp
        have hpne : p.1 ≠ fp0 := by
          intro he
          refine hnd2.1 p.2 ?_
          rw [← he]
          exact hp
        rw [countFp_filter_out hpne]
        exact hrc p (List.mem_cons_of_mem _ hp)
      · intro p hp f hf hfp
        exact hvw p (List.mem_cons_of_mem _ hp) f (List.mem_of_mem_filter hf) hfp
      · intro f hf
        have hfne : f.fingerprint ≠ fp0 := by simpa using List.of_mem_filter hf
        obtain ⟨b, hb⟩ := hfb f (List.mem_of_mem_filter hf)
        rcases List.mem_cons.mp hb with heq | hmem
        · exact absurd (congrArg Prod.fst heq) hfne
        · exact ⟨b, hmem⟩
    by_cases hlive : b0.refCount = 0
    · rw [List.filter_cons_of_neg (by simpa using hlive)]
      omega
    · rw [List.filter_cons_of_pos (by simpa using hlive)]
      have hstep : (((fp0, b0) :: rest.filter (fun p => p.2.refCount != 0)).map
          (fun p => v p.2)).sum =
          v b0 + ((rest.filter (fun p => p.2.refCount != 0)).map (fun p => v p.2)).sum := by
        simp
      rw [hstep]
      have hcpos : 0 < countFp files fp0 := by omega
      obtain ⟨f, hf, hffp⟩ := countFp_pos_exists hcpos
      have hvb : v b0 ≤ w f := hvw (fp0, b0) (List.mem_cons_self _ _) f hf hffp
      have hwmem : w f ∈ (files.filter (fun g => g.fingerprint == fp0)).map w :=
        List.mem_map_of_mem w (List.mem_filter.mpr ⟨hf, by simpa using hffp⟩)
      have hwle : w f ≤ ((files.filter (fun f => f.fingerprint == fp0)).map w).sum :=
        List.le_sum_of_mem hwmem
      omega

lemma blobLookup_none {s : EngineState} {fp : Fingerprint}
    (hfb : findBlob s fp = none) : blobLookup s fp = none := by
  simp [blobLookup, hfb]

lemma blobLookup_pos {s : EngineState} {fp : Fingerprint} {b : Blob}
    (hfb : findBlob s fp = some b) (hrc : 0 < b.refCount) :
    blobLookup s fp = some ⟨b.size, b.refCount⟩ := by
  simp [blobLookup, hfb, hrc]

lemma blobLookup_zero {s : EngineState} {fp : Fingerprint} {b : Blob}
    (hfb : findBlob s fp = some b) (hrc : ¬ 0 < b.refCount) :
    blobLookup s fp = none := by
  simp [blobLookup, hfb, hrc]

/-! ### Statistics claim theorems -/

/-- A concrete reachable state: two uploads of `"hello"` and one of
`"hi"`, so three files over two blobs. -/
def sampleState : EngineState :=
  (upload (upload (upload emptyState "hello" none).1 "hello" none).1 "hi" none).1

lemma sampleState_reachable : Reachable sampleState :=
  Reachable.up _ "hi" none
    (Reachable.up _ "hello" none
      (Reachable.up _ "hello" none Reachable.init))

/-- C3.  In every published snapshot: `total_size` is the sum of the
nominal sizes of all FileEntry records, `actual_size` is the sum of the
byte sizes of the blobs with positive reference count, and
`storage_saved` is their difference and is never negative. -/
theorem stats_conservation (s : EngineState) (h : Reachable s) :
    (computeStats s).total_size = (s.files.map (fun f => f.nominalSize)).sum ∧
    (computeStats s).actual_size = ((liveBlobs s).map (fun p => p.2.size)).sum ∧
    (computeStats s).storage_saved =
      ((computeStats s).total_size : Int) - ((computeStats s).actual_size : Int) ∧
    0 ≤ (computeStats s).storage_saved := by
  have hi := reachable_inv h
  refine ⟨rfl, rfl, rfl, ?_⟩
  have hle : ((s.blobs.filter (fun p => p.2.refCount != 0)).map (fun p => p.2.size)).sum ≤
      (s.files.map (fun f => f.nominalSize)).sum := by
    refine live_sum_le Blob.size FileEntry.nominalSize s.blobs s.files
      hi.keysNodup hi.rcCount ?_ hi.fileBlob
    intro p hp f hf hfp
    have h1 := hi.blobSize p hp
    have h2 := hi.fileSize f hf
    rw [h1, h2, hfp]
  exact Int.sub_nonneg.mpr (Int.ofNat_le.mpr hle)

/-- Witness for C3 at the sample state, where the snapshot saves 5 bytes
(12 nominal bytes over 7 physical). -/
theorem stats_conservation_witness :
    Reachable sampleState ∧
    ((computeStats sampleState).total_size =
        (sampleState.files.map (fun f => f.nominalSize)).sum ∧
      (computeStats sampleState).actual_size =
        ((liveBlobs sampleState).map (fun p => p.2.size)).sum ∧
      (computeStats sampleState).storage_saved =
        ((computeStats sampleState).total_size : Int) -
          ((computeStats sampleState).actual_size : Int) ∧
      0 ≤ (computeStats sampleState).storage_saved) ∧
    (computeStats sampleState).total_size = 12 ∧
    (computeStats sampleState).actual_size = 7 ∧
    (computeStats sampleState).storage_saved = 5 :=
  ⟨sampleState_reachable, stats_conservation sampleState sampleState_reachable,
    by decide, by decide, by decide⟩

/-- C5.  In every published snapshot, `duplicate_files` equals
`total_files − unique_files`, and `unique_files` never exceeds
`total_files`. -/
theorem stats_duplicates (s : EngineState) (h : Reachable s) :
    (computeStats s).duplicate_files =
      ((computeStats s).total_files : Int) - ((computeStats s).unique_files : Int) ∧
    (computeStats s).unique_files ≤ (computeStats s).total_files := by
  have hi := reachable_inv h
  refine ⟨rfl, ?_⟩
  have hle : ((s.blobs.filter (fun p => p.2.refCount != 0)).map (fun _ => 1)).sum ≤
      (s.files.map (fun _ => 1)).sum := by
    refine live_sum_le (fun _ => 1) (fun _ => 1) s.blobs s.files
      hi.keysNodup hi.rcCount (fun _ _ _ _ _ => le_refl 1) hi.fileBlob
  rw [sum_map_one, sum_map_one] at hle
  exact hle

/-- Witness for C5 at the sample state: 2 unique files over 3 total, one
duplicate. -/
theorem stats_duplicates_witness :
    Reachable sampleState ∧
    ((computeStats sampleState).duplicate_files =
        ((computeStats sampleState).total_files : Int) -
          ((computeStats sampleState).unique_files : Int) ∧
      (computeStats sampleState).unique_files ≤ (computeStats sampleState).total_files) ∧
    (computeStats sampleState).total_files = 3 ∧
    (computeStats sampleState).unique_files = 2 ∧
    (computeStats sampleState).duplicate_files = 1 :=
  ⟨sampleState_reachable, stats_duplicates sampleState sampleState_reachable,
    by decide, by decide, by decide⟩

/-- C7.  Blob Store `lookup` returns the size and reference count of the
blob for a fingerprint exactly when such a blob exists with positive
reference count, and returns nothing otherwise; in particular a blob
whose reference count is 0 is never returned. -/
theorem lookup_meta (s : EngineState) (h : Reachable s) (fp : Fingerprint) (m : BlobMeta) :
    (blobLookup s fp = some m ↔
      ∃ b, (fp, b) ∈ s.blobs ∧ 0 < b.refCount ∧
        m.size = b.size ∧ m.refCount = b.refCount) ∧
    (blobLookup s fp = some m → 0 < m.refCount) := by
  have hi := reachable_inv h
  have hfwd : blobLookup s fp = some m →
      ∃ b, (fp, b) ∈ s.blobs ∧ 0 < b.refCount ∧
        m.size = b.size ∧ m.refCount = b.refCount := by
    intro hlk
    cases hfb : findBlob s fp with
    | none =>
      rw [blobLookup_none hfb] at hlk
      exact absurd hlk (by simp)
    | some b =>
      by_cases hrc : 0 < b.refCount
      · rw [blobLookup_pos hfb hrc] at hlk
        have hm := Option.some.inj hlk
        exact ⟨b, mem_of_findB hfb, hrc, by rw [← hm], by rw [← hm]⟩
      · rw [blobLookup_zero hfb hrc] at hlk
        exact absurd hlk (by simp)
  refine ⟨⟨hfwd, ?_⟩, fun hlk => ?_⟩
  · rintro ⟨b, hb, hrc, hms, hmr⟩
    have hfb : findBlob s fp = some b := findB_of_mem hi.keysNodup hb
    rw [blobLookup_pos hfb hrc]
    cases m
    simp_all
  · obtain ⟨b, _, hrc, _, hmr⟩ := hfwd hlk
    rw [hmr]
    exact hrc

/-- Witness for C7 at the sample state and fingerprint `"hello"`, whose
blob has size 5 and reference count 2. -/
theorem lookup_meta_witness :
    Reachable sampleState ∧
    ((blobLookup sampleState "hello" = some ⟨5, 2⟩ ↔
      ∃ b, ("hello", b) ∈ sampleState.blobs ∧ 0 < b.refCount ∧
        (⟨5, 2⟩ : BlobMeta).size = b.size ∧ (⟨5, 2⟩ : BlobMeta).refCount = b.refCount) ∧
     (blobLookup sampleState "hello" = some ⟨5, 2⟩ →
       0 < (⟨5, 2⟩ : BlobMeta).refCount)) ∧
    blobLookup sampleState "hello" = some ⟨5, 2⟩ :=
  ⟨sampleState_reachable, lookup_meta sampleState sampleState_reachable "hello" ⟨5, 2⟩,
    by decide⟩

/-! ### Failure atomicity (upload) -/

/-- C8.  From any quiescent state (empty staging area), an upload either
fails with the state exactly unchanged — no blob created, no reference
count changed, no staged bytes left, no index entry — or succeeds with
the blob and its File Index entry both fully created: the blob for the
content's fingerprint ends with reference count one greater than before
and the new FileEntry for the returned id is in the index. -/
theorem upload_atomic (s : EngineState) (c : Content) (oracle : Option StorageErr)
    (hst : s.staging = []) :
    (∀ e, (upload s c oracle).2 = .err e → (upload s c oracle).1 = s) ∧
    (∀ fid, (upload s c oracle).2 = .ok fid →
      (∃ b, findBlob (upload s c oracle).1 (contentHash c) = some b ∧
        b.refCount = rcOf s (contentHash c) + 1) ∧
      (⟨fid, c.length, contentHash c⟩ : FileEntry) ∈ (upload s c oracle).1.files) := by
  cases hfb : findBlob s (contentHash c) with
  | some b =>
    cases oracle with
    | some e =>
      rw [upload_link_err e hfb]
      exact ⟨fun _ _ => rfl, fun fid hok => absurd hok (by simp)⟩
    | none =>
      rw [upload_link_ok hfb]
      refine ⟨fun e he => absurd he (by simp), fun fid hok => ?_⟩
      have hfid : fid = s.nextId := by simpa using hok.symm
      subst hfid
      have hfb' : findB s.blobs (contentHash c) = some b := hfb
      refine ⟨⟨⟨b.size, b.refCount + 1⟩, ?_, ?_⟩, List.mem_cons_self _ _⟩
      · show findB (adjustB s.blobs (contentHash c)
          (fun b' => ⟨b'.size, b'.refCount + 1⟩)) (contentHash c) = _
        rw [findB_adjustB_self, hfb']
        rfl
      · show b.refCount + 1 = rcOf s (contentHash c) + 1
        unfold rcOf
        rw [hfb]
        rfl
  | none =>
    cases oracle with
    | some e =>
      rw [upload_fresh_err e hst hfb]
      exact ⟨fun _ _ => rfl, fun fid hok => absurd hok (by simp)⟩
    | none =>
      rw [upload_fresh_ok hst hfb]
      refine ⟨fun e he => absurd he (by simp), fun fid hok => ?_⟩
      have hfid : fid = s.nextId := by simpa using hok.symm
      subst hfid
      refine ⟨⟨⟨c.length, 1⟩, ?_, ?_⟩, List.mem_cons_self _ _⟩
      · exact findB_cons_self _ _ _
      · show 1 = rcOf s (contentHash c) + 1
        unfold rcOf
        rw [hfb]
        rfl

/-- Witness for C8: an injected stream failure on an upload of `"a"` into
the empty state aborts with the state unchanged. -/
theorem upload_atomic_witness :
    emptyState.staging = [] ∧
    ((∀ e, (upload emptyState "a" (some StorageErr.ioFailure)).2 = .err e →
        (upload emptyState "a" (some StorageErr.ioFailure)).1 = emptyState) ∧
     (∀ fid, (upload emptyState "a" (some StorageErr.ioFailure)).2 = .ok fid →
        (∃ b, findBlob (upload emptyState "a" (some StorageErr.ioFailure)).1
            (contentHash "a") = some b ∧
          b.refCount = rcOf emptyState (contentHash "a") + 1) ∧
        (⟨fid, "a".length, contentHash "a"⟩ : FileEntry) ∈
          (upload emptyState "a" (some StorageErr.ioFailure)).1.files)) :=
  ⟨rfl, upload_atomic emptyState "a" (some StorageErr.ioFailure) rfl⟩

/-! ### Physical-write accounting -/

/-- Modelled from the spec: a concurrent batch of uploads (§5) — since
every `put_or_link` is atomic inside its per-fingerprint critical
section, any concurrent execution is one of the serialisations, i.e. an
arbitrary interleaving order `cs` of the uploads. -/
def runUploads (cs : List Content) (s : EngineState) : EngineState :=
  match cs with
  | [] => s
  | c :: rest => runUploads rest (upload s c none).1

lemma step_link (s : EngineState) (c : Content) {b : Blob}
    (hfb : findBlob s (contentHash c) = some b) :
    (upload s c none).1.staging = s.staging ∧
    (∀ fp, hasBlob (upload s c none).1 fp = hasBlob s fp) ∧
    (∀ fp, writeCount (upload s c none).1 fp = writeCount s fp) ∧
    (∀ fp, countFp (upload s c none).1.files fp =
      countFp s.files fp + (if contentHash c = fp then 1 else 0)) := by
  rw [upload_link_ok hfb]
  refine ⟨rfl, ?_, fun fp => rfl, ?_⟩
  · intro fp
    show (findB (adjustB s.blobs (contentHash c)
      (fun b' => ⟨b'.size, b'.refCount + 1⟩)) fp).isSome = (findB s.blobs fp).isSome
    by_cases h : fp = contentHash c
    · rw [h, findB_adjustB_self]
      cases findB s.blobs (contentHash c) <;> rfl
    · rw [findB_adjustB_ne _ _ h]
  · intro fp
    show countFp ((⟨s.nextId, c.length, contentHash c⟩ : FileEntry) :: s.files) fp = _
    rw [countFp_cons]

lemma step_fresh (s : EngineState) (c : Content)
    (hst : s.staging = []) (hfb : findBlob s (contentHash c) = none) :
    (upload s c none).1.staging = [] ∧
    (∀ fp, hasBlob (upload s c none).1 fp =
      ((if contentHash c = fp then true else false) || hasBlob s fp)) ∧
    (∀ fp, writeCount (upload s c none).1 fp =
      writeCount s fp + (if contentHash c = fp then 1 else 0)) ∧
    (∀ fp, countFp (upload s c none).1.files fp =
      countFp s.files fp + (if contentHash c = fp then 1 else 0)) := by
  rw [upload_fresh_ok hst hfb]
  refine ⟨rfl, ?_, ?_, ?_⟩
  · intro fp
    show (findB ((contentHash c, ⟨c.length, 1⟩) :: s.blobs) fp).isSome = _
    by_cases h : contentHash c = fp
    · rw [← h, findB_cons_self, if_pos rfl]
      rfl
    · rw [findB_cons_ne _ _ h, if_neg h, Bool.false_or]
      rfl
  · intro fp
    show (contentHash c :: s.writeLog).count fp = _
    rw [List.count_cons]
    unfold writeCount
    by_cases h : contentHash c = fp <;> simp [h]
  · intro fp
    show countFp ((⟨s.nextId, c.length, contentHash c⟩ : FileEntry) :: s.files) fp = _
    rw [countFp_cons]

lemma runUploads_counts :
    ∀ (cs : List Content) (s : EngineState), s.staging = [] →
      (∀ fp, writeCount s fp = if hasBlob s fp then 1 else 0) →
      ∀ fp,
        writeCount (runUploads cs s) fp =
          (if (hasBlob s fp || cs.any (fun d => contentHash d == fp)) then 1 else 0) ∧
        hasBlob (runUploads cs s) fp =
          (hasBlob s fp || cs.any (fun d => contentHash d == fp)) ∧
        countFp (runUploads cs s).files fp =
          countFp s.files fp + cs.countP (fun d => contentHash d == fp)
  | [], s, hst, hU, fp => by
    refine ⟨?_, ?_, ?_⟩
    · simpa using hU fp
    · simp [runUploads]
    · simp [runUploads]
  | c :: rest, s, hst, hU, fp => by
    have hrun : runUploads (c :: rest) s = runUploads rest (upload s c none).1 := rfl
    cases hfb : findBlob s (contentHash c) with
    | some b =>
      obtain ⟨hst', hHB, hWC, hCF⟩ := step_link s c hfb
      have hUafter : ∀ fp', writeCount (upload s c none).1 fp' =
          if hasBlob (upload s c none).1 fp' then 1 else 0 := by
        intro fp'
        rw [hWC fp', hHB fp']
        exact hU fp'
      obtain ⟨ih1, ih2, ih3⟩ :=
        runUploads_counts rest (upload s c none).1 (hst'.trans hst) hUafter fp
      have hblobc : hasBlob s (contentHash c) = true := by
        unfold hasBlob
        rw [hfb]
        rfl
      refine ⟨?_, ?_, ?_⟩
      · rw [hrun, ih1, hHB fp]
        by_cases h : contentHash c = fp
        · rw [← h, hblobc]
          simp
        · have hb : (contentHash c == fp) = false := by simpa using h
          rw [List.any_cons, hb, Bool.false_or]
      · rw [hrun, ih2, hHB fp]
        by_cases h : contentHash c = fp
        · rw [← h, hblobc]
          simp
        · have hb : (contentHash c == fp) = false := by simpa using h
          rw [List.any_cons, hb, Bool.false_or]
      · have e1 : countFp (runUploads (c :: rest) s).files fp =
            countFp (upload s c none).1.files fp +
              List.countP (fun d => contentHash d == fp) rest := by
          rw [hrun]
          exact ih3
        have e2 := hCF fp
        have e3 : List.countP (fun d => contentHash d == fp) (c :: rest) =
            List.countP (fun d => contentHash d == fp) rest +
              (if contentHash c = fp then 1 else 0) := by
          by_cases h : contentHash c = fp
          · have hb : (contentHash c == fp) = true := by simpa using h
            simp [List.countP_cons, hb, h]
          · have hb : (contentHash c == fp) = false := by simpa using h
            simp [List.countP_cons, hb, h]
        rw [e1, e2, e3]
        omega
    | none =>
      obtain ⟨hst', hHB, hWC, hCF⟩ := step_fresh s c hst hfb
      have hblobc : hasBlob s (contentHash c) = false := by
        unfold hasBlob
        rw [hfb]
        rfl
      have hUafter : ∀ fp', writeCount (upload s c none).1 fp' =
          if hasBlob (upload s c none).1 fp' then 1 else 0 := by
        intro fp'
        rw [hWC fp', hHB fp', hU fp']
        by_cases h : contentHash c = fp'
        · rw [← h, hblobc]
          simp
        · simp [h]
      obtain ⟨ih1, ih2, ih3⟩ :=
        runUploads_counts rest (upload s c none).1 hst' hUafter fp
      refine ⟨?_, ?_, ?_⟩
      · rw [hrun, ih1, hHB fp]
        by_cases h : contentHash c = fp
        · rw [← h, hblobc]
          simp
        · have hb : (contentHash c == fp) = false := by simpa using h
          rw [List.any_cons, hb, Bool.false_or, if_neg h, Bool.false_or]
      · rw [hrun, ih2, hHB fp]
        by_cases h : contentHash c = fp
        · rw [← h, hblobc]
          simp
        · have hb : (contentHash c == fp) = false := by simpa using h
          rw [List.any_cons, hb, Bool.false_or, if_neg h, Bool.false_or]
      · have e1 : countFp (runUploads (c :: rest) s).files fp =
            countFp (upload s c none).1.files fp +
              List.countP (fun d => contentHash d == fp) rest := by
          rw [hrun]
          exact ih3
        have e2 := hCF fp
        have e3 : List.countP (fun d => contentHash d == fp) (c :: rest) =
            List.countP (fun d => contentHash d == fp) rest +
              (if contentHash c = fp then 1 else 0) := by
          by_cases h : contentHash c = fp
          · have hb : (contentHash c == fp) = true := by simpa using h
            simp [List.countP_cons, hb, h]
          · have hb : (contentHash c == fp) = false := by simpa using h
            simp [List.countP_cons, hb, h]
        rw [e1, e2, e3]
        omega

lemma any_hash_mem (cs : List Content) (c : Content) :
    cs.any (fun d => contentHash d == contentHash c) = decide (c ∈ cs) := by
  induction cs with
  | nil => rfl
  | cons d rest ih =>
    rw [List.any_cons, ih]
    by_cases hd : d = c
    · subst hd
      simp [contentHash]
    · have h1 : (contentHash d == contentHash c) = false := by
        simpa [contentHash] using hd
      have h2 : decide (c ∈ d :: rest) = decide (c ∈ rest) := by
        simp [List.mem_cons, Ne.symm hd]
      rw [h1, h2, Bool.false_or]

/-- C6 (amended) theorem part.  Over any upload-only interleaving `cs`
executed from the initial state, the fingerprint of a content `c` is
physically written exactly once when `c` occurs in the batch (however
many times) and never otherwise — so K ≥ 2 concurrent uploads of
identical content cause exactly one physical write — and the File Index
ends up with exactly one FileEntry per upload of `c`. -/
theorem dedup_single_write (cs : List Content) (c : Content) :
    writeCount (runUploads cs emptyState) (contentHash c) = (if c ∈ cs then 1 else 0) ∧
    countFp (runUploads cs emptyState).files (contentHash c) = cs.count c := by
  obtain ⟨h1, h2, h3⟩ :=
    runUploads_counts cs emptyState rfl (fun fp => rfl) (contentHash c)
  constructor
  · rw [h1]
    have hempty : hasBlob emptyState (contentHash c) = false := rfl
    rw [hempty, Bool.false_or, any_hash_mem]
    by_cases hmem : c ∈ cs <;> simp [hmem]
  · rw [h3]
    have hzero : countFp emptyState.files (contentHash c) = 0 := rfl
    rw [hzero, Nat.zero_add]
    rfl

/-- C6 counterexample to the "at most one physical write ever occurs per
fingerprint" clause: uploading `"a"`, deleting the file (which reclaims
the blob), and uploading `"a"` again performs two physical writes for
the same fingerprint. -/
theorem write_twice_after_reclaim :
    writeCount (upload (fileDelete (upload emptyState "a" none).1 0).1 "a" none).1
      (contentHash "a") = 2 := by
  decide

/-! ### Reference-counting sequences (C4) -/

/-- Runs `n` consecutive uploads of the same content `c`. -/
def uploadN : Nat → Content → EngineState → EngineState
  | 0, _, s => s
  | n + 1, c, s => (upload (uploadN n c s) c none).1

/-- Delete the files with the given ids, in order. -/
def deleteIds : List Nat → EngineState → EngineState
  | [], s => s
  | i :: rest, s => deleteIds rest (fileDelete s i).1

/-- The ids `n-1, n-2, …, 0`. -/
def descIds : Nat → List Nat
  | 0 => []
  | n + 1 => n :: descIds n

/-- The engine state holding one file per id in `ids`, all with content
`c`, plus the single shared blob (absent when no file remains). -/
def genState (c : Content) (ids : List Nat) (nid : Nat) : EngineState :=
  { blobs := if ids.isEmpty then [] else [(contentHash c, ⟨c.length, ids.length⟩)],
    files := ids.map (fun i => ⟨i, c.length, contentHash c⟩),
    nextId := nid,
    staging := [],
    writeLog := [contentHash c] }

lemma descIds_length (n : Nat) : (descIds n).length = n := by
  induction n with
  | zero => rfl
  | succ m ih => simp [descIds, ih]

lemma descIds_mem (n i : Nat) : i ∈ descIds n ↔ i < n := by
  induction n with
  | zero => simp [descIds]
  | succ m ih =>
    simp only [descIds, List.mem_cons, ih]
    omega

lemma descIds_nodup (n : Nat) : (descIds n).Nodup := by
  induction n with
  | zero => exact List.nodup_nil
  | succ m ih =>
    refine List.nodup_cons.mpr ⟨?_, ih⟩
    rw [descIds_mem]
    omega

lemma nat_find_beq {l : List Nat} {i : Nat} (hi : i ∈ l) :
    l.find? (fun j => j == i) = some i := by
  induction l with
  | nil => simp at hi
  | cons j rest ih =>
    by_cases hj : j = i
    · rw [List.find?_cons_of_pos _ (by simpa using hj), hj]
    · rw [List.find?_cons_of_neg _ (by simpa using hj)]
      rcases List.mem_cons.mp hi with h | h
      · exact absurd h.symm hj
      · exact ih h

lemma nat_filter_bne_erase {l : List Nat} {i : Nat} (hnd : l.Nodup) (hi : i ∈ l) :
    l.filter (fun j => j != i) = l.erase i := by
  induction l with
  | nil => simp at hi
  | cons j rest ih =>
    have hnd' := List.nodup_cons.mp hnd
    by_cases hj : j = i
    · subst hj
      rw [List.filter_cons_of_neg (by simp), List.erase_cons_head]
      refine List.filter_eq_self.mpr ?_
      intro k hk
      have : k ≠ j := fun he => hnd'.1 (he ▸ hk)
      simpa using this
    · have hirest : i ∈ rest := by
        rcases List.mem_cons.mp hi with h | h
        · exact absurd h.symm hj
        · exact h
      rw [List.filter_cons_of_pos (by simpa using hj),
        List.erase_cons_tail (by simpa using hj), ih hnd'.2 hirest]

lemma uploadN_gen (c : Content) : ∀ n : Nat,
    uploadN (n + 1) c emptyState = genState c (descIds (n + 1)) (n + 1)
  | 0 => by
    have hfb : findBlob emptyState (contentHash c) = none := rfl
    show (upload (uploadN 0 c emptyState) c none).1 = _
    rw [show uploadN 0 c emptyState = emptyState from rfl, upload_fresh_ok rfl hfb]
    rfl
  | n + 1 => by
    have ih := uploadN_gen c n
    show (upload (uploadN (n + 1) c emptyState) c none).1 = _
    rw [ih]
    have hblobs : (genState c (descIds (n + 1)) (n + 1)).blobs =
        [(contentHash c, ⟨c.length, (descIds (n + 1)).length⟩)] := rfl
    have hfb : findBlob (genState c (descIds (n + 1)) (n + 1)) (contentHash c) =
        some ⟨c.length, (descIds (n + 1)).length⟩ := by
      show findB (genState c (descIds (n + 1)) (n + 1)).blobs (contentHash c) = _
      rw [hblobs]
      exact findB_cons_self _ _ _
    rw [upload_link_ok hfb]
    simp only [genState, hblobs, adjustB, List.map_cons, List.map_nil,
      beq_self_eq_true, if_pos, descIds_length]
    refine EngineState.mk.injEq _ _ _ _ _ _ _ _ _ _ |>.mpr ?_
    refine ⟨?_, ?_, rfl, rfl, rfl⟩
    · rw [show (descIds (n + 2)).isEmpty = false from rfl,
        show (descIds (n + 1)).isEmpty = false from rfl]
      simp [descIds_length]
    · show _ :: (descIds (n + 1)).map _ = (descIds (n + 2)).map _
      rfl

lemma delete_gen (c : Content) (ids : List Nat) (nid i : Nat)
    (hnd : ids.Nodup) (hi : i ∈ ids) :
    (fileDelete (genState c ids nid) i).1 = genState c (ids.erase i) nid := by
  have hne : ids.isEmpty = false := by
    cases ids
    · simp at hi
    · rfl
  have hblobs : (genState c ids nid).blobs =
      [(contentHash c, (⟨c.length, ids.length⟩ : Blob))] := by
    simp [genState, hne]
  have hfind : (genState c ids nid).files.find? (fun f => f.id == i) =
      some ⟨i, c.length, contentHash c⟩ := by
    show ((ids.map (fun j => (⟨j, c.length, contentHash c⟩ : FileEntry))).find?
      (fun f => f.id == i)) = _
    rw [List.find?_map]
    have hcomp : ((fun f : FileEntry => f.id == i) ∘
        (fun j => (⟨j, c.length, contentHash c⟩ : FileEntry))) = fun j => j == i := rfl
    rw [hcomp, nat_find_beq hi]
    rfl
  rw [fileDelete_found hfind]
  have hfilterfiles : (genState c ids nid).files.filter (fun g => g.id != i) =
      (ids.erase i).map (fun j => (⟨j, c.length, contentHash c⟩ : FileEntry)) := by
    show ((ids.map (fun j => (⟨j, c.length, contentHash c⟩ : FileEntry))).filter
      (fun g => g.id != i)) = _
    rw [List.filter_map]
    have hcomp : ((fun g : FileEntry => g.id != i) ∘
        (fun j => (⟨j, c.length, contentHash c⟩ : FileEntry))) = fun j => j != i := rfl
    rw [hcomp, nat_filter_bne_erase hnd hi]
  have hfb1 : findBlob { genState c ids nid with
      files := (genState c ids nid).files.filter (fun g => g.id != i) }
      (contentHash c) = some (⟨c.length, ids.length⟩ : Blob) := by
    show findB (genState c ids nid).blobs (contentHash c) = _
    rw [hblobs]
    exact findB_cons_self _ _ _
  have hpos : 0 < ids.length := List.length_pos.mpr (List.ne_nil_of_mem hi)
  have herase : (ids.erase i).length = ids.length - 1 := List.length_erase_of_mem hi
  by_cases hone : ids.length ≤ 1
  · rw [unlink_last hfb1 (by simpa using hone)]
    have hlen1 : ids.length = 1 := by omega
    obtain ⟨a, ha⟩ := List.length_eq_one.mp hlen1
    have hia : i = a := by
      rw [ha] at hi
      simpa using hi
    subst hia
    refine EngineState.mk.injEq _ _ _ _ _ _ _ _ _ _ |>.mpr ⟨?_, ?_, rfl, rfl, rfl⟩
    · show removeB (genState c ids nid).blobs (contentHash c) = _
      rw [hblobs, ha]
      simp [removeB, genState]
    · show (genState c ids nid).files.filter (fun g => g.id != i) = _
      rw [hfilterfiles, ha]
  · rw [unlink_dec hfb1 (by simpa using hone)]
    have hne' : (ids.erase i).isEmpty = false := by
      cases he : ids.erase i with
      | nil =>
        rw [he] at herase
        simp at herase
        omega
      | cons x xs => rfl
    refine EngineState.mk.injEq _ _ _ _ _ _ _ _ _ _ |>.mpr ⟨?_, ?_, rfl, rfl, rfl⟩
    · show adjustB (genState c ids nid).blobs (contentHash c)
        (fun b' => ⟨b'.size, b'.refCount - 1⟩) = _
      rw [hblobs]
      simp only [adjustB, List.map_cons, List.map_nil, beq_self_eq_true, if_pos]
      simp [genState, hne', herase]
    · show (genState c ids nid).files.filter (fun g => g.id != i) = _
      rw [hfilterfiles]

lemma deleteIds_gen (c : Content) : ∀ (ds ids : List Nat) (nid : Nat),
    ids.Nodup → ds.Nodup → (∀ d ∈ ds, d ∈ ids) →
    deleteIds ds (genState c ids nid) = genState c (ds.foldl List.erase ids) nid
  | [], ids, nid, _, _, _ => rfl
  | d :: rest, ids, nid, hnd, hdnd, hsub => by
    have hd : d ∈ ids := hsub d (List.mem_cons_self _ _)
    have hdnd' := List.nodup_cons.mp hdnd
    have hsub' : ∀ x ∈ rest, x ∈ ids.erase d := by
      intro x hx
      have hxd : x ≠ d := fun he => hdnd'.1 (he ▸ hx)
      exact (List.mem_erase_of_ne hxd).mpr (hsub x (List.mem_cons_of_mem _ hx))
    show deleteIds rest (fileDelete (genState c ids nid) d).1 = _
    rw [delete_gen c ids nid d hnd hd,
      deleteIds_gen c rest (ids.erase d) nid (hnd.erase d) hdnd'.2 hsub']
    rfl

lemma foldl_erase_length : ∀ (ds ids : List Nat),
    ds.Nodup → (∀ d ∈ ds, d ∈ ids) →
    (ds.foldl List.erase ids).length + ds.length = ids.length
  | [], ids, _, _ => rfl
  | d :: rest, ids, hdnd, hsub => by
    have hd : d ∈ ids := hsub d (List.mem_cons_self _ _)
    have hdnd' := List.nodup_cons.mp hdnd
    have hsub' : ∀ x ∈ rest, x ∈ ids.erase d := by
      intro x hx
      have hxd : x ≠ d := fun he => hdnd'.1 (he ▸ hx)
      exact (List.mem_erase_of_ne hxd).mpr (hsub x (List.mem_cons_of_mem _ hx))
    have hrec := foldl_erase_length rest (ids.erase d) hdnd'.2 hsub'
    have hlen : (ids.erase d).length = ids.length - 1 := List.length_erase_of_mem hd
    have hpos : 0 < ids.length := List.length_pos.mpr (List.ne_nil_of_mem hd)
    show (rest.foldl List.erase (ids.erase d)).length + (rest.length + 1) = ids.length
    omega

lemma rcOf_gen (c : Content) (ids : List Nat) (nid : Nat) :
    rcOf (genState c ids nid) (contentHash c) = ids.length ∧
    hasBlob (genState c ids nid) (contentHash c) = !ids.isEmpty := by
  cases ids with
  | nil => exact ⟨rfl, rfl⟩
  | cons j rest =>
    have hblobs : (genState c (j :: rest) nid).blobs =
        [(contentHash c, (⟨c.length, (j :: rest).length⟩ : Blob))] := rfl
    constructor
    · show (findB (genState c (j :: rest) nid).blobs (contentHash c)).elim 0 Blob.refCount = _
      rw [hblobs, findB_cons_self]
      rfl
    · show (findB (genState c (j :: rest) nid).blobs (contentHash c)).isSome = _
      rw [hblobs, findB_cons_self]
      rfl

/-- C4.  Starting from the empty engine, after `N` uploads of identical
content `c` followed by deletion of any `M ≤ N` of the created files
(any set `ds` of distinct ids below `N`, so `M = ds.length`), the blob's
reference count equals `N − M`, and the blob is physically present
exactly when `N − M ≠ 0` (it is reclaimed exactly when all copies are
deleted). -/
theorem refcount_sequence (c : Content) (n : Nat) (ds : List Nat)
    (hnd : ds.Nodup) (hlt : ∀ d ∈ ds, d < n) :
    rcOf (deleteIds ds (uploadN n c emptyState)) (contentHash c) = n - ds.length ∧
    (hasBlob (deleteIds ds (uploadN n c emptyState)) (contentHash c) = true ↔
      n - ds.length ≠ 0) := by
  cases n with
  | zero =>
    have hds : ds = [] := by
      cases ds with
      | nil => rfl
      | cons d rest => exact absurd (hlt d (List.mem_cons_self _ _)) (by omega)
    subst hds
    exact ⟨rfl, by simp [deleteIds, uploadN, hasBlob, findBlob, findB, emptyState]⟩
  | succ m =>
    rw [uploadN_gen c m]
    have hsub : ∀ d ∈ ds, d ∈ descIds (m + 1) :=
      fun d hd => (descIds_mem _ _).mpr (hlt d hd)
    rw [deleteIds_gen c ds (descIds (m + 1)) (m + 1) (descIds_nodup _) hnd hsub]
    have hlen : (ds.foldl List.erase (descIds (m + 1))).length + ds.length = m + 1 := by
      rw [foldl_erase_length ds (descIds (m + 1)) hnd hsub, descIds_length]
    obtain ⟨h1, h2⟩ := rcOf_gen c (ds.foldl List.erase (descIds (m + 1))) (m + 1)
    refine ⟨by rw [h1]; omega, ?_⟩
    rw [h2]
    have hiff : (!(ds.foldl List.erase (descIds (m + 1))).isEmpty) = true ↔
        (ds.foldl List.erase (descIds (m + 1))).length ≠ 0 := by
      cases ds.foldl List.erase (descIds (m + 1)) <;> simp
    refine hiff.trans ?_
    omega

/-- Witness for C4: three uploads of `"ab"` then deletion of files 1 and
2 leaves the blob with reference count `3 - 2 = 1`, still present. -/
theorem refcount_sequence_witness :
    ([1, 2] : List Nat).Nodup ∧ (∀ d ∈ ([1, 2] : List Nat), d < 3) ∧
    (rcOf (deleteIds [1, 2] (uploadN 3 "ab" emptyState)) (contentHash "ab") =
        3 - ([1, 2] : List Nat).length ∧
      (hasBlob (deleteIds [1, 2] (uploadN 3 "ab" emptyState)) (contentHash "ab") = true ↔
        3 - ([1, 2] : List Nat).length ≠ 0)) :=
  ⟨by decide, by decide, refcount_sequence "ab" 3 [1, 2] (by decide) (by decide)⟩
